import Mathlib

set_option maxHeartbeats 1000000

/-!
Shallow embedding of the consistent-hashing ring implemented in
`src/main.rs` (struct `HashRing` and its methods), together with proofs
of the specified properties.

Rust `HashMap<u32, V>` is modelled as an association list
`List (Nat × V)`; `u32` values are modelled as `Nat` (the hash function
is proved to stay below `2 ^ 32`).  Panics (index out of bounds, missing
map entry) are modelled by `Option`: a `none` result stands for a fatal
failure of the corresponding Rust expression.
-/

/-- `HashMap` lookup (`map[&k]` / `map.get(&k)`): the value stored at key
`k`, if any. -/
def lookupA {α : Type} (m : List (Nat × α)) (k : Nat) : Option α :=
  match m with
  | [] => none
  | (k2, v) :: rest => if k2 = k then some v else lookupA rest k

/-- `HashMap::contains_key`. -/
def containsA {α : Type} (m : List (Nat × α)) (k : Nat) : Bool :=
  (lookupA m k).isSome

/-- The keys of the association list, in order. -/
def keysA {α : Type} (m : List (Nat × α)) : List Nat :=
  m.map Prod.fst

/-- `HashMap::insert`: replace the entry if the key is present, else add
a fresh entry. -/
def insertA {α : Type} (m : List (Nat × α)) (k : Nat) (v : α) : List (Nat × α) :=
  match m with
  | [] => [(k, v)]
  | (k2, v2) :: rest => if k2 = k then (k2, v) :: rest else (k2, v2) :: insertA rest k v

/-- `HashMap::remove`: drop the entry with key `k`, if any. -/
def eraseA {α : Type} (m : List (Nat × α)) (k : Nat) : List (Nat × α) :=
  match m with
  | [] => []
  | (k2, v2) :: rest => if k2 = k then rest else (k2, v2) :: eraseA rest k

/-- `map.entry(k).or_insert_with(Vec::new).push(v)` on the inverse map
`HashMap<u32, Vec<u32>>`. -/
def pushInverse (m : List (Nat × List Nat)) (k v : Nat) : List (Nat × List Nat) :=
  match m with
  | [] => [(k, [v])]
  | (k2, l) :: rest => if k2 = k then (k2, l ++ [v]) :: rest else (k2, l) :: pushInverse rest k v

/-- `counter.entry(k).and_modify(add one).or_insert(1)`. -/
def bump (m : List (Nat × Nat)) (k : Nat) : List (Nat × Nat) :=
  match m with
  | [] => [(k, 1)]
  | (k2, c) :: rest => if k2 = k then (k2, c + 1) :: rest else (k2, c) :: bump rest k

/-- One bit step of the reflected CRC-32 with polynomial `0xEDB88320`,
the checksum computed by `crc32fast::hash`. -/
def crc32Step (c : Nat) : Nat :=
  if c % 2 = 1 then (c / 2) ^^^ 0xEDB88320 else c / 2

/-- Fold one input byte into the CRC-32 state (xor the byte in, then
eight bit steps). -/
def crc32Byte (c b : Nat) : Nat :=
  crc32Step (crc32Step (crc32Step (crc32Step
    (crc32Step (crc32Step (crc32Step (crc32Step (c ^^^ (b % 256)))))))))

/-- `create_hash` (via `crc32fast::hash`): the IEEE CRC-32 checksum of a
byte sequence, a 32-bit value. -/
def create_hash (data : List Nat) : Nat :=
  0xFFFFFFFF ^^^ data.foldl crc32Byte 0xFFFFFFFF

/-- Decimal rendering of a number as ASCII byte codes, as Rust's
`format!("{}", n)` produces. -/
def natToBytes (n : Nat) : List Nat :=
  (Nat.toDigits 10 n).map Char.toNat

/-- The bytes of the synthetic key `format!("s:{}:v:{}", server_id, i)`
built in `generate_vnode_id`. -/
def vnode_key_bytes (server_id i : Nat) : List Nat :=
  [115, 58] ++ natToBytes server_id ++ [58, 118, 58] ++ natToBytes i

/-- The largest key of an association list (`0` when empty); only used
to justify termination of the collision probe. -/
def maxKey {α : Type} (m : List (Nat × α)) : Nat :=
  (keysA m).foldr max 0

theorem mem_keysA_of_containsA {α : Type} (m : List (Nat × α)) (k : Nat)
    (h : containsA m k = true) : k ∈ keysA m := by
  induction m with
  | nil => simp [containsA, lookupA] at h
  | cons p rest ih =>
    obtain ⟨k2, v⟩ := p
    simp only [containsA, lookupA] at h
    by_cases hk : k2 = k
    · subst hk; simp [keysA]
    · simp only [if_neg hk] at h
      have := ih h
      simp [keysA] at this ⊢
      exact Or.inr this

theorem le_foldr_max (l : List Nat) (k : Nat) (h : k ∈ l) : k ≤ l.foldr max 0 := by
  induction l with
  | nil => simp at h
  | cons a t ih =>
    simp only [List.mem_cons] at h
    rcases h with rfl | h
    · exact le_max_left _ _
    · exact le_trans (ih h) (le_max_right _ _)

theorem le_maxKey_of_containsA {α : Type} (m : List (Nat × α)) (k : Nat)
    (h : containsA m k = true) : k ≤ maxKey m :=
  le_foldr_max _ _ (mem_keysA_of_containsA m k h)

/-- The collision-probing loop of `generate_vnode_id`: while the
candidate id is already a key of the forward map, advance it by 1. -/
@[irreducible] def probe (m : List (Nat × Nat)) (v : Nat) : Nat :=
  if containsA m v = true then probe m (v + 1) else v
termination_by maxKey m + 1 - v
decreasing_by
  rename_i h
  have := le_maxKey_of_containsA m v h
  omega

/-- The ring state (`struct HashRing`): the physical-node ids, the
virtual-node ids, the forward map virtual→physical, the inverse map
physical→virtuals, and the per-physical hit counter. -/
structure HashRing where
  physical_nodes : List Nat
  virtual_nodes : List Nat
  virtual_to_physical : List (Nat × Nat)
  physical_to_virtual : List (Nat × List Nat)
  server_counter : List (Nat × Nat)
deriving DecidableEq

/-- `Vec::sort` on the virtual-node ids. -/
def sortNodes (l : List Nat) : List Nat :=
  List.insertionSort (· ≤ ·) l

/-- `HashRing::new`. -/
def HashRing.new : HashRing :=
  ⟨[], [], [], [], []⟩

/-- `HashRing::new_with_servers`, with the randomly generated 32-bit
server ids passed in as a list (one per loop iteration). -/
def new_with_servers (ids : List Nat) : HashRing :=
  ⟨ids, [], [], [], []⟩

/-- `generate_vnode_id`: hash the synthetic key and linearly probe past
ids already present in the forward map. -/
def generate_vnode_id (r : HashRing) (server_id i : Nat) : Nat :=
  probe r.virtual_to_physical (create_hash (vnode_key_bytes server_id i))

/-- One iteration of the loop body of `generate_virtual_nodes`. -/
def addOneVnode (r : HashRing) (server_id i : Nat) : HashRing :=
  let vnode_id := generate_vnode_id r server_id i
  { r with
      virtual_nodes := r.virtual_nodes ++ [vnode_id],
      virtual_to_physical := insertA r.virtual_to_physical vnode_id server_id,
      physical_to_virtual := pushInverse r.physical_to_virtual server_id vnode_id }

/-- `generate_virtual_nodes`: generate 100 virtual nodes for a server. -/
@[irreducible] def generate_virtual_nodes (r : HashRing) (server_id : Nat) : HashRing :=
  (List.range 100).foldl (fun s i => addOneVnode s server_id i) r

/-- `init_all_servers`: generate virtual nodes for every known physical
node, then sort the virtual-node sequence once. -/
def init_all_servers (r : HashRing) : HashRing :=
  let r2 := r.physical_nodes.foldl (fun s p => generate_virtual_nodes s p) r
  { r2 with virtual_nodes := sortNodes r2.virtual_nodes }

/-- `add_server`, with the randomly generated 32-bit server id passed in
as `server_id`: push it, generate its virtual nodes, sort, return it. -/
def add_server (server_id : Nat) (r : HashRing) : Nat × HashRing :=
  let r1 := { r with physical_nodes := r.physical_nodes ++ [server_id] }
  let r2 := generate_virtual_nodes r1 server_id
  (server_id, { r2 with virtual_nodes := sortNodes r2.virtual_nodes })

/-- `remove_virtual_nodes`: pop the server's inverse-map entry; if it
was present, drop its virtual ids from the forward map and from the
virtual-node sequence. -/
def remove_virtual_nodes (r : HashRing) (server_id : Nat) : HashRing :=
  match lookupA r.physical_to_virtual server_id with
  | none => r
  | some vnodes =>
    { r with
        physical_to_virtual := eraseA r.physical_to_virtual server_id,
        virtual_to_physical := vnodes.foldl (fun m v => eraseA m v) r.virtual_to_physical,
        virtual_nodes := r.virtual_nodes.filter (fun x => !(vnodes.contains x)) }

/-- `remove_server`: filter the id out of the physical set, remove its
virtual nodes, re-sort. -/
def remove_server (r : HashRing) (server_id : Nat) : HashRing :=
  let r1 := { r with physical_nodes := r.physical_nodes.filter (fun x => x != server_id) }
  let r2 := remove_virtual_nodes r1 server_id
  { r2 with virtual_nodes := sortNodes r2.virtual_nodes }

/-- The loop of `binary_search_next_greatest`: standard lower-bound
search for the first index whose element is strictly greater than
`key`, on the closed range `[left, right]`. -/
def bsLoop (arr : List Nat) (key left right : Nat) : Nat :=
  if left < right then
    if arr.getD (left + (right - left) / 2) 0 ≤ key then
      bsLoop arr key (left + (right - left) / 2 + 1) right
    else
      bsLoop arr key left (left + (right - left) / 2)
  else left
termination_by right - left
decreasing_by
  all_goals omega

/-- `binary_search_next_greatest`.  On an empty array the Rust code
subtracts from a zero length and indexes out of bounds (a panic),
modelled by `none`. -/
def binary_search_next_greatest (arr : List Nat) (key : Nat) : Option Nat :=
  match arr with
  | [] => none
  | _ :: _ =>
    if arr.getD (arr.length - 1) 0 ≤ key then some 0
    else some (bsLoop arr key 0 (arr.length - 1))

/-- `pick_server_on_ring`: hash the key, find the owning virtual node by
binary search, resolve it through the forward map, bump the hit counter
of the chosen physical id and return it.  `none` models a panic. -/
def pick_server_on_ring (r : HashRing) (data : List Nat) : Option (Nat × HashRing) :=
  (binary_search_next_greatest r.virtual_nodes (create_hash data)).bind (fun idx =>
    (r.virtual_nodes[idx]?).bind (fun vnode_id =>
      (lookupA r.virtual_to_physical vnode_id).map (fun server_id =>
        (server_id, { r with server_counter := bump r.server_counter server_id }))))

/-- Ring invariant: every virtual-node id is a key of the forward map
(maintained by generation, needed for the distinctness argument). -/
def ringKeysOK (r : HashRing) : Prop :=
  ∀ v ∈ r.virtual_nodes, containsA r.virtual_to_physical v = true

/-- The concatenation of all inverse-map value lists. -/
def valuesJoin (m : List (Nat × List Nat)) : List Nat :=
  (m.map Prod.snd).flatten

/-- Modelled from the spec's words (§4.6): the first virtual-node id
strictly greater than the hash; when no id is greater (the hash is at or
above the maximum), wrap around to the first (smallest) id.  This is the
reference point the binary search is proved against. -/
def specRingTarget (l : List Nat) (h : Nat) : Option Nat :=
  match l.find? (fun v => decide (h < v)) with
  | some v => some v
  | none => l.head?

/-! ### Association-list lemmas -/

theorem containsA_iff_mem_keysA {α : Type} (m : List (Nat × α)) (k : Nat) :
    containsA m k = true ↔ k ∈ keysA m := by
  induction m with
  | nil => simp [containsA, lookupA, keysA]
  | cons p rest ih =>
    obtain ⟨k2, v⟩ := p
    by_cases hk : k2 = k
    · subst hk; simp [containsA, lookupA, keysA]
    · simp only [containsA, lookupA, if_neg hk, keysA, List.map_cons, List.mem_cons]
      rw [← keysA, ← containsA, ih]
      constructor
      · exact Or.inr
      · rintro (h | h)
        · exact absurd h.symm hk
        · exact h

theorem containsA_false_iff {α : Type} (m : List (Nat × α)) (k : Nat) :
    containsA m k = false ↔ k ∉ keysA m := by
  rw [← Bool.not_eq_true, not_iff_not]
  exact containsA_iff_mem_keysA m k

theorem keysA_append {α : Type} (m1 m2 : List (Nat × α)) :
    keysA (m1 ++ m2) = keysA m1 ++ keysA m2 := by
  simp [keysA]

theorem lookupA_append_of_not_mem {α : Type} (m1 m2 : List (Nat × α)) (k : Nat)
    (h : k ∉ keysA m1) : lookupA (m1 ++ m2) k = lookupA m2 k := by
  induction m1 with
  | nil => simp
  | cons p rest ih =>
    obtain ⟨k2, v⟩ := p
    have hk : ¬ k2 = k := by
      intro hh; exact h (by simp [keysA, hh])
    have hrest : k ∉ keysA rest := by
      intro hh; exact h (by simp only [keysA, List.map_cons, List.mem_cons]; right; exact hh)
    show (if k2 = k then some v else lookupA (rest ++ m2) k) = lookupA m2 k
    rw [if_neg hk, ih hrest]

theorem lookupA_append_left {α : Type} (m1 m2 : List (Nat × α)) (k : Nat)
    (h : containsA m1 k = true) : lookupA (m1 ++ m2) k = lookupA m1 k := by
  induction m1 with
  | nil => simp [containsA, lookupA] at h
  | cons p rest ih =>
    obtain ⟨k2, v⟩ := p
    by_cases hk : k2 = k
    · simp [lookupA, if_pos hk]
    · simp only [containsA, lookupA, if_neg hk] at h
      simp only [List.cons_append, lookupA, if_neg hk]
      exact ih h

theorem insertA_of_not_contains {α : Type} (m : List (Nat × α)) (k : Nat) (v : α)
    (h : containsA m k = false) : insertA m k v = m ++ [(k, v)] := by
  induction m with
  | nil => simp [insertA]
  | cons p rest ih =>
    obtain ⟨k2, v2⟩ := p
    simp only [containsA, lookupA] at h
    by_cases hk : k2 = k
    · simp [if_pos hk] at h
    · simp only [if_neg hk] at h
      simp [insertA, if_neg hk, ih h]

theorem eraseA_append_of_not_mem {α : Type} (m1 m2 : List (Nat × α)) (k : Nat)
    (h : k ∉ keysA m1) : eraseA (m1 ++ m2) k = m1 ++ eraseA m2 k := by
  induction m1 with
  | nil => simp
  | cons p rest ih =>
    obtain ⟨k2, v⟩ := p
    have hk : ¬ k2 = k := by
      intro hh; exact h (by simp [keysA, hh])
    have hrest : k ∉ keysA rest := by
      intro hh; exact h (by simp only [keysA, List.map_cons, List.mem_cons]; right; exact hh)
    show (if k2 = k then rest ++ m2 else (k2, v) :: eraseA (rest ++ m2) k)
        = (k2, v) :: (rest ++ eraseA m2 k)
    rw [if_neg hk, ih hrest]

theorem eraseA_cons_self {α : Type} (m : List (Nat × α)) (k : Nat) (v : α) :
    eraseA ((k, v) :: m) k = m := by
  simp [eraseA]

theorem eraseA_of_not_mem {α : Type} (m : List (Nat × α)) (k : Nat)
    (h : k ∉ keysA m) : eraseA m k = m := by
  induction m with
  | nil => rfl
  | cons p rest ih =>
    obtain ⟨k2, v⟩ := p
    have hk : ¬ k2 = k := by
      intro hh; exact h (by simp [keysA, hh])
    have hrest : k ∉ keysA rest := by
      intro hh; exact h (by simp only [keysA, List.map_cons, List.mem_cons]; right; exact hh)
    show (if k2 = k then rest else (k2, v) :: eraseA rest k) = (k2, v) :: rest
    rw [if_neg hk, ih hrest]

theorem keysA_eraseA_sublist {α : Type} (m : List (Nat × α)) (k : Nat) :
    (keysA (eraseA m k)).Sublist (keysA m) := by
  induction m with
  | nil => simp [eraseA]
  | cons p rest ih =>
    obtain ⟨k2, v⟩ := p
    by_cases hk : k2 = k
    · simp only [eraseA, if_pos hk, keysA, List.map_cons]
      exact (List.sublist_cons_self _ _)
    · simp only [eraseA, if_neg hk, keysA, List.map_cons]
      exact ih.cons₂ _

theorem lookupA_eraseA_self {α : Type} (m : List (Nat × α)) (k : Nat)
    (hnd : (keysA m).Nodup) : lookupA (eraseA m k) k = none := by
  induction m with
  | nil => rfl
  | cons p rest ih =>
    obtain ⟨k2, v⟩ := p
    simp only [keysA, List.map_cons, List.nodup_cons] at hnd
    by_cases hk : k2 = k
    · subst hk
      simp only [eraseA, if_pos rfl]
      cases h : lookupA rest k2 with
      | none => exact h
      | some v2 =>
        exact absurd (mem_keysA_of_containsA rest k2 (by simp [containsA, h])) hnd.1
    · simp only [eraseA, if_neg hk, lookupA, if_neg hk]
      exact ih hnd.2

theorem lookupA_eraseA_ne {α : Type} (m : List (Nat × α)) (k t : Nat)
    (h : t ≠ k) : lookupA (eraseA m k) t = lookupA m t := by
  induction m with
  | nil => rfl
  | cons p rest ih =>
    obtain ⟨k2, v⟩ := p
    by_cases hk : k2 = k
    · have hk2t : ¬ k2 = t := fun hh => h (by rw [← hh, hk])
      show lookupA (if k2 = k then rest else (k2, v) :: eraseA rest k) t
          = if k2 = t then some v else lookupA rest t
      rw [if_pos hk, if_neg hk2t]
    · show lookupA (if k2 = k then rest else (k2, v) :: eraseA rest k) t
          = if k2 = t then some v else lookupA rest t
      rw [if_neg hk]
      show (if k2 = t then some v else lookupA (eraseA rest k) t)
          = if k2 = t then some v else lookupA rest t
      rw [ih]

theorem lookupA_eraseFold {α : Type} (vs : List Nat) (m : List (Nat × α)) (v : Nat)
    (hnd : (keysA m).Nodup) :
    lookupA (vs.foldl (fun m2 w => eraseA m2 w) m) v
      = if v ∈ vs then none else lookupA m v := by
  induction vs generalizing m with
  | nil => simp
  | cons w ws ih =>
    simp only [List.foldl_cons]
    have hnd2 : (keysA (eraseA m w)).Nodup := (keysA_eraseA_sublist m w).nodup hnd
    rw [ih _ hnd2]
    by_cases hws : v ∈ ws
    · simp [hws, List.mem_cons]
    · by_cases hvw : v = w
      · subst hvw
        simp [hws, lookupA_eraseA_self m v hnd]
      · simp [hws, hvw, lookupA_eraseA_ne m w v hvw]

theorem lookupA_bump_self (m : List (Nat × Nat)) (k : Nat) :
    lookupA (bump m k) k = some ((lookupA m k).getD 0 + 1) := by
  induction m with
  | nil => simp [bump, lookupA]
  | cons p rest ih =>
    obtain ⟨k2, c⟩ := p
    by_cases hk : k2 = k
    · simp [bump, lookupA, hk]
    · simp [bump, lookupA, hk, ih]

theorem lookupA_bump_ne (m : List (Nat × Nat)) (k t : Nat) (h : t ≠ k) :
    lookupA (bump m k) t = lookupA m t := by
  have hkt : ¬ k = t := fun hh => h hh.symm
  induction m with
  | nil => simp [bump, lookupA, hkt]
  | cons p rest ih =>
    obtain ⟨k2, c⟩ := p
    by_cases hk : k2 = k
    · subst hk
      simp [bump, lookupA, hkt]
    · by_cases ht : k2 = t
      · simp [bump, lookupA, hk, ht, h]
      · simp [bump, lookupA, hk, ht, ih]

/-! ### The collision probe never returns an occupied id -/

theorem containsA_probe (m : List (Nat × Nat)) (v : Nat) :
    containsA m (probe m v) = false := by
  have H : ∀ n w, maxKey m + 1 - w ≤ n → containsA m (probe m w) = false := by
    intro n
    induction n with
    | zero =>
      intro w hw
      have h : ¬ containsA m w = true := by
        intro hc
        have := le_maxKey_of_containsA m w hc
        omega
      rw [probe, if_neg h]
      simpa using h
    | succ n ih =>
      intro w hw
      by_cases h : containsA m w = true
      · rw [probe, if_pos h]
        have := le_maxKey_of_containsA m w h
        exact ih (w + 1) (by omega)
      · rw [probe, if_neg h]
        simpa using h
  exact H (maxKey m + 1) v (by omega)

/-! ### The hash is a 32-bit value -/

theorem crc32Step_lt (c : Nat) (h : c < 2 ^ 32) : crc32Step c < 2 ^ 32 := by
  unfold crc32Step
  have hc : c / 2 < 2 ^ 32 := lt_of_le_of_lt (Nat.div_le_self c 2) h
  by_cases hm : c % 2 = 1
  · rw [if_pos hm]
    exact Nat.xor_lt_two_pow hc (by norm_num)
  · rw [if_neg hm]
    exact hc

theorem crc32Byte_lt (c b : Nat) (h : c < 2 ^ 32) : crc32Byte c b < 2 ^ 32 := by
  unfold crc32Byte
  have h0 : c ^^^ (b % 256) < 2 ^ 32 :=
    Nat.xor_lt_two_pow h (lt_of_lt_of_le (Nat.mod_lt b (by norm_num)) (by norm_num))
  exact crc32Step_lt _ (crc32Step_lt _ (crc32Step_lt _ (crc32Step_lt _ (crc32Step_lt _
    (crc32Step_lt _ (crc32Step_lt _ (crc32Step_lt _ h0)))))))

theorem create_hash_lt (data : List Nat) : create_hash data < 2 ^ 32 := by
  unfold create_hash
  have H : ∀ (l : List Nat) (c : Nat), c < 2 ^ 32 → l.foldl crc32Byte c < 2 ^ 32 := by
    intro l
    induction l with
    | nil => intro c hc; simpa using hc
    | cons b t ih => intro c hc; exact ih _ (crc32Byte_lt c b hc)
  exact Nat.xor_lt_two_pow (by norm_num) (H data _ (by norm_num))

/-! ### Inverse-map lemmas -/

theorem pushInverse_of_not_contains (m : List (Nat × List Nat)) (k v : Nat)
    (h : containsA m k = false) : pushInverse m k v = m ++ [(k, [v])] := by
  induction m with
  | nil => simp [pushInverse]
  | cons p rest ih =>
    obtain ⟨k2, l⟩ := p
    simp only [containsA, lookupA] at h
    by_cases hk : k2 = k
    · simp [if_pos hk] at h
    · simp only [if_neg hk] at h
      simp [pushInverse, if_neg hk, ih h]

theorem pushInverse_append_self (m : List (Nat × List Nat)) (k v : Nat) (l : List Nat)
    (h : k ∉ keysA m) : pushInverse (m ++ [(k, l)]) k v = m ++ [(k, l ++ [v])] := by
  induction m with
  | nil => simp [pushInverse]
  | cons p rest ih =>
    obtain ⟨k2, l2⟩ := p
    have hk : ¬ k2 = k := by
      intro hh; exact h (by simp [keysA, hh])
    have hrest : k ∉ keysA rest := by
      intro hh; exact h (by simp only [keysA, List.map_cons, List.mem_cons]; right; exact hh)
    show (if k2 = k then (k2, l2 ++ [v]) :: (rest ++ [(k, l)])
          else (k2, l2) :: pushInverse (rest ++ [(k, l)]) k v)
        = (k2, l2) :: (rest ++ [(k, l ++ [v])])
    rw [if_neg hk, ih hrest]

theorem pushFold_append_self (ws : List Nat) (m : List (Nat × List Nat)) (k : Nat)
    (l : List Nat) (h : k ∉ keysA m) :
    ws.foldl (fun m2 w => pushInverse m2 k w) (m ++ [(k, l)]) = m ++ [(k, l ++ ws)] := by
  induction ws generalizing l with
  | nil => simp
  | cons w ws2 ih =>
    simp only [List.foldl_cons]
    rw [pushInverse_append_self m k w l h, ih (l ++ [w])]
    simp

theorem pushFold_of_not_contains (ws : List Nat) (m : List (Nat × List Nat)) (k w : Nat)
    (h : containsA m k = false) :
    (w :: ws).foldl (fun m2 w2 => pushInverse m2 k w2) m = m ++ [(k, w :: ws)] := by
  simp only [List.foldl_cons]
  rw [pushInverse_of_not_contains m k w h,
      pushFold_append_self ws m k [w] ((containsA_false_iff m k).mp h)]
  simp

theorem valuesJoin_pushInverse (m : List (Nat × List Nat)) (k v : Nat) :
    List.Perm (valuesJoin (pushInverse m k v)) (valuesJoin m ++ [v]) := by
  induction m with
  | nil => simp [pushInverse, valuesJoin]
  | cons p rest ih =>
    obtain ⟨k2, l⟩ := p
    by_cases hk : k2 = k
    · show List.Perm (valuesJoin (if k2 = k then (k2, l ++ [v]) :: rest
        else (k2, l) :: pushInverse rest k v)) _
      rw [if_pos hk]
      simp only [valuesJoin, List.map_cons, List.flatten_cons, List.append_assoc]
      exact List.Perm.append_left l (List.perm_append_comm.trans (by simp))
    · show List.Perm (valuesJoin (if k2 = k then (k2, l ++ [v]) :: rest
        else (k2, l) :: pushInverse rest k v)) _
      rw [if_neg hk]
      simp only [valuesJoin, List.map_cons, List.flatten_cons, List.append_assoc]
      exact List.Perm.append_left l ih

/-! ### Sorted-list access lemmas -/

theorem sorted_getD_mono (l : List Nat) (hs : l.Sorted (· ≤ ·)) (i j : Nat)
    (hij : i ≤ j) (hj : j < l.length) : l.getD i 0 ≤ l.getD j 0 := by
  have hi : i < l.length := lt_of_le_of_lt hij hj
  have h2 := hs.rel_get_of_le (show (⟨i, hi⟩ : Fin l.length) ≤ ⟨j, hj⟩ from hij)
  rw [List.getD_eq_getElem?_getD, List.getD_eq_getElem?_getD,
      List.getElem?_eq_getElem hi, List.getElem?_eq_getElem hj]
  simpa [List.get_eq_getElem] using h2

theorem getD_mem_of_lt (l : List Nat) (i : Nat) (hi : i < l.length) : l.getD i 0 ∈ l := by
  rw [List.getD_eq_getElem?_getD, List.getElem?_eq_getElem hi]
  exact List.getElem_mem hi

theorem mem_le_getD_last (l : List Nat) (hs : l.Sorted (· ≤ ·)) (x : Nat) (hx : x ∈ l) :
    x ≤ l.getD (l.length - 1) 0 := by
  obtain ⟨i, hi, hix⟩ := List.mem_iff_getElem.mp hx
  have : l.getD i 0 = x := by
    rw [List.getD_eq_getElem?_getD, List.getElem?_eq_getElem hi, hix]
    rfl
  rw [← this]
  exact sorted_getD_mono l hs i (l.length - 1) (by omega) (by omega)

theorem head?_eq_getD (l : List Nat) (hne : l ≠ []) : l.head? = some (l.getD 0 0) := by
  cases l with
  | nil => exact absurd rfl hne
  | cons a t => rfl

/-! ### The binary-search loop finds the first element above the key -/

theorem bsLoop_spec (arr : List Nat) (key : Nat) (hs : arr.Sorted (· ≤ ·)) :
    ∀ n left right, right - left ≤ n → left ≤ right → right < arr.length →
      key < arr.getD right 0 → (∀ j, j < left → arr.getD j 0 ≤ key) →
      left ≤ bsLoop arr key left right ∧ bsLoop arr key left right ≤ right ∧
        key < arr.getD (bsLoop arr key left right) 0 ∧
        (∀ j, j < bsLoop arr key left right → arr.getD j 0 ≤ key) := by
  intro n
  induction n with
  | zero =>
    intro left right hn hlr hrlen hkey hpre
    have hleft : ¬ left < right := by omega
    rw [bsLoop, if_neg hleft]
    have : left = right := by omega
    exact ⟨le_refl _, hlr, by rw [this]; exact hkey, hpre⟩
  | succ n ih =>
    intro left right hn hlr hrlen hkey hpre
    by_cases hlt : left < right
    · rw [bsLoop, if_pos hlt]
      have hmidlt : left + (right - left) / 2 < right := by omega
      have hmidge : left ≤ left + (right - left) / 2 := by omega
      by_cases hmid : arr.getD (left + (right - left) / 2) 0 ≤ key
      · rw [if_pos hmid]
        have hpre2 : ∀ j, j < left + (right - left) / 2 + 1 → arr.getD j 0 ≤ key := by
          intro j hj
          exact le_trans
            (sorted_getD_mono arr hs j (left + (right - left) / 2) (by omega) (by omega)) hmid
        have h2 := ih (left + (right - left) / 2 + 1) right (by omega) (by omega) hrlen hkey hpre2
        exact ⟨le_trans (by omega) h2.1, h2.2.1, h2.2.2⟩
      · rw [if_neg hmid]
        have h2 := ih left (left + (right - left) / 2) (by omega) (by omega) (by omega)
          (lt_of_not_le hmid) hpre
        exact ⟨h2.1, le_trans h2.2.1 (by omega), h2.2.2⟩
    · rw [bsLoop, if_neg hlt]
      have : left = right := by omega
      exact ⟨le_refl _, hlr, by rw [this]; exact hkey, hpre⟩

/-! ### The spec's description of the lookup target -/

theorem find?_first_eq (p : Nat → Bool) (l : List Nat) (i : Nat) (hi : i < l.length)
    (hpi : p (l.getD i 0) = true) (hj : ∀ j, j < i → p (l.getD j 0) = false) :
    l.find? p = some (l.getD i 0) := by
  induction l generalizing i with
  | nil => simp at hi
  | cons a t ih =>
    cases i with
    | zero =>
      rw [List.getD_cons_zero] at hpi ⊢
      exact List.find?_cons_of_pos _ hpi
    | succ k =>
      have ha : p a = false := by
        have := hj 0 (by omega)
        rwa [List.getD_cons_zero] at this
      rw [List.find?_cons_of_neg _ (by simp [ha]), List.getD_cons_succ]
      refine ih k (by simpa using hi) (by rwa [List.getD_cons_succ] at hpi) ?_
      intro j hjk
      have := hj (j + 1) (by omega)
      rwa [List.getD_cons_succ] at this

theorem sorted_find?_lt_iff (l : List Nat) (hs : l.Sorted (· ≤ ·)) (h v : Nat) :
    l.find? (fun u => decide (h < u)) = some v ↔
      v ∈ l ∧ h < v ∧ ∀ u ∈ l, h < u → v ≤ u := by
  induction l with
  | nil => simp
  | cons a t ih =>
    have hat : ∀ x ∈ t, a ≤ x := (List.sorted_cons.mp hs).1
    have hst : t.Sorted (· ≤ ·) := (List.sorted_cons.mp hs).2
    by_cases hha : h < a
    · rw [List.find?_cons_of_pos _ (by simpa using hha)]
      constructor
      · intro h2
        have hav : a = v := by injection h2
        subst hav
        refine ⟨List.mem_cons_self a t, hha, ?_⟩
        intro u hu _
        rcases List.mem_cons.mp hu with rfl | hu2
        · exact le_refl _
        · exact hat u hu2
      · rintro ⟨hv, hhv, hmin⟩
        have h1 : v ≤ a := hmin a (List.mem_cons_self a t) hha
        have h2 : a ≤ v := by
          rcases List.mem_cons.mp hv with rfl | hv2
          · exact le_refl _
          · exact hat v hv2
        rw [le_antisymm h2 h1]
    · rw [List.find?_cons_of_neg _ (by simpa using hha), ih hst]
      constructor
      · rintro ⟨hv, hhv, hmin⟩
        refine ⟨List.mem_cons_of_mem a hv, hhv, ?_⟩
        intro u hu hhu
        rcases List.mem_cons.mp hu with rfl | hu2
        · exact absurd hhu hha
        · exact hmin u hu2 hhu
      · rintro ⟨hv, hhv, hmin⟩
        have hv2 : v ∈ t := by
          rcases List.mem_cons.mp hv with rfl | hv2
          · exact absurd hhv hha
          · exact hv2
        exact ⟨hv2, hhv, fun u hu hhu => hmin u (List.mem_cons_of_mem a hu) hhu⟩

theorem sorted_head?_iff (l : List Nat) (hs : l.Sorted (· ≤ ·)) (v : Nat) :
    l.head? = some v ↔ v ∈ l ∧ ∀ u ∈ l, v ≤ u := by
  cases l with
  | nil => simp
  | cons a t =>
    have hat : ∀ x ∈ t, a ≤ x := (List.sorted_cons.mp hs).1
    simp only [List.head?_cons, Option.some.injEq]
    constructor
    · rintro rfl
      refine ⟨List.mem_cons_self _ _, ?_⟩
      intro u hu
      rcases List.mem_cons.mp hu with rfl | h2
      · exact le_refl _
      · exact hat u h2
    · rintro ⟨hv, hmin⟩
      have h1 : v ≤ a := hmin a (List.mem_cons_self _ _)
      have h2 : a ≤ v := by
        rcases List.mem_cons.mp hv with rfl | h2
        · exact le_refl _
        · exact hat v h2
      exact le_antisymm h2 h1

theorem specRingTarget_of_ge_max (l : List Nat) (hs : l.Sorted (· ≤ ·)) (h : Nat)
    (hge : l.getD (l.length - 1) 0 ≤ h) : specRingTarget l h = l.head? := by
  unfold specRingTarget
  have hnone : l.find? (fun v => decide (h < v)) = none := by
    rw [List.find?_eq_none]
    intro x hx
    simp only [decide_eq_true_eq]
    have := mem_le_getD_last l hs x hx
    omega
  rw [hnone]

/-- The binary search, composed with indexing, computes exactly the
spec's ring target on a sorted non-empty array. -/
theorem binary_search_eq_specRingTarget (arr : List Nat) (key : Nat)
    (hne : arr ≠ []) (hs : arr.Sorted (· ≤ ·)) :
    ∃ idx, binary_search_next_greatest arr key = some idx ∧ idx < arr.length ∧
      specRingTarget arr key = some (arr.getD idx 0) := by
  have hlen : 0 < arr.length := List.length_pos.mpr hne
  by_cases hge : arr.getD (arr.length - 1) 0 ≤ key
  · refine ⟨0, ?_, hlen, ?_⟩
    · cases arr with
      | nil => exact absurd rfl hne
      | cons a t =>
        show (if (a :: t).getD ((a :: t).length - 1) 0 ≤ key then some 0
          else some (bsLoop (a :: t) key 0 ((a :: t).length - 1))) = some 0
        rw [if_pos hge]
    · rw [specRingTarget_of_ge_max arr hs key hge, head?_eq_getD arr hne]
  · have hspec := bsLoop_spec arr key hs (arr.length - 1) 0 (arr.length - 1)
      (by omega) (by omega) (by omega) (lt_of_not_le hge) (by omega)
    refine ⟨bsLoop arr key 0 (arr.length - 1), ?_, by omega, ?_⟩
    · cases arr with
      | nil => exact absurd rfl hne
      | cons a t =>
        show (if (a :: t).getD ((a :: t).length - 1) 0 ≤ key then some 0
          else some (bsLoop (a :: t) key 0 ((a :: t).length - 1))) = some _
        rw [if_neg hge]
    · unfold specRingTarget
      rw [find?_first_eq (fun v => decide (key < v)) arr (bsLoop arr key 0 (arr.length - 1))
        (by omega) (by simpa using hspec.2.2.1) ?_]
      intro j hj
      simpa using hspec.2.2.2 j hj

/-! ### Structure of a successful lookup -/

theorem pick_eq_specRingTarget (r : HashRing) (data : List Nat)
    (hne : r.virtual_nodes ≠ []) (hs : r.virtual_nodes.Sorted (· ≤ ·)) :
    (pick_server_on_ring r data).map Prod.fst
      = (specRingTarget r.virtual_nodes (create_hash data)).bind
          (fun v => lookupA r.virtual_to_physical v) := by
  obtain ⟨idx, hbs, hlt, htgt⟩ :=
    binary_search_eq_specRingTarget r.virtual_nodes (create_hash data) hne hs
  have hidx : r.virtual_nodes[idx]? = some (r.virtual_nodes.getD idx 0) := by
    rw [List.getElem?_eq_getElem hlt, List.getD_eq_getElem?_getD,
        List.getElem?_eq_getElem hlt]
    rfl
  rw [htgt]
  unfold pick_server_on_ring
  rw [hbs]
  simp only [Option.some_bind, hidx]
  cases hl : lookupA r.virtual_to_physical (r.virtual_nodes.getD idx 0) with
  | none => simp only [Option.map_none', Option.some_bind]
  | some s => simp only [Option.map_some', Option.map_some, Option.some_bind]

theorem pick_some_inv (r : HashRing) (data : List Nat) (s : Nat) (r1 : HashRing)
    (h : pick_server_on_ring r data = some (s, r1)) :
    r1 = { r with server_counter := bump r.server_counter s } := by
  unfold pick_server_on_ring at h
  cases hbs : binary_search_next_greatest r.virtual_nodes (create_hash data) with
  | none => rw [hbs] at h; simp at h
  | some idx =>
    rw [hbs] at h
    simp only [Option.some_bind] at h
    cases hget : r.virtual_nodes[idx]? with
    | none => rw [hget] at h; simp at h
    | some v =>
      rw [hget] at h
      simp only [Option.some_bind] at h
      cases hl : lookupA r.virtual_to_physical v with
      | none => rw [hl] at h; simp at h
      | some s2 =>
        rw [hl] at h
        simp only [Option.map_some', Option.map_some, Option.some.injEq,
          Prod.mk.injEq] at h
        rw [← h.2, ← h.1]

theorem pick_map_fst_congr (r2 r : HashRing) (data : List Nat)
    (hv : r2.virtual_nodes = r.virtual_nodes)
    (hf : r2.virtual_to_physical = r.virtual_to_physical) :
    (pick_server_on_ring r2 data).map Prod.fst
      = (pick_server_on_ring r data).map Prod.fst := by
  unfold pick_server_on_ring
  rw [hv, hf]
  cases hbs : binary_search_next_greatest r.virtual_nodes (create_hash data) with
  | none => rfl
  | some idx =>
    simp only [Option.some_bind]
    cases hget : r.virtual_nodes[idx]? with
    | none => rfl
    | some v =>
      simp only [Option.some_bind]
      cases hl : lookupA r.virtual_to_physical v with
      | none => rfl
      | some s => rfl

/-! ### Structure of virtual-node generation -/

theorem containsA_append {α : Type} (m1 m2 : List (Nat × α)) (k : Nat) :
    containsA (m1 ++ m2) k = (containsA m1 k || containsA m2 k) := by
  induction m1 with
  | nil => simp [containsA, lookupA]
  | cons p rest ih =>
    obtain ⟨k2, v⟩ := p
    by_cases hk : k2 = k
    · simp [containsA, lookupA, hk]
    · show ((if k2 = k then some v else lookupA (rest ++ m2) k)).isSome
          = (((if k2 = k then some v else lookupA rest k)).isSome || containsA m2 k)
      rw [if_neg hk, if_neg hk]
      exact ih

theorem keysA_map_pair (ws : List Nat) (sid : Nat) :
    keysA (ws.map (fun w => (w, sid))) = ws := by
  induction ws with
  | nil => rfl
  | cons w ws2 ih => simp only [List.map_cons, keysA] at ih ⊢; rw [ih]

theorem addOneVnode_eq (r : HashRing) (sid i : Nat) :
    addOneVnode r sid i
      = { r with
          virtual_nodes := r.virtual_nodes ++ [generate_vnode_id r sid i],
          virtual_to_physical :=
            r.virtual_to_physical ++ [(generate_vnode_id r sid i, sid)],
          physical_to_virtual :=
            pushInverse r.physical_to_virtual sid (generate_vnode_id r sid i) } := by
  have hw0 : containsA r.virtual_to_physical (generate_vnode_id r sid i) = false := by
    unfold generate_vnode_id
    exact containsA_probe _ _
  simp only [addOneVnode]
  rw [insertA_of_not_contains _ _ sid hw0]

theorem genFold_spec (sid : Nat) (is : List Nat) (r : HashRing) :
    ∃ ws : List Nat,
      ws.length = is.length ∧
      (∀ w ∈ ws, containsA r.virtual_to_physical w = false) ∧
      ws.Nodup ∧
      (is.foldl (fun s i => addOneVnode s sid i) r).virtual_nodes
        = r.virtual_nodes ++ ws ∧
      (is.foldl (fun s i => addOneVnode s sid i) r).virtual_to_physical
        = r.virtual_to_physical ++ ws.map (fun w => (w, sid)) ∧
      (is.foldl (fun s i => addOneVnode s sid i) r).physical_to_virtual
        = ws.foldl (fun m w => pushInverse m sid w) r.physical_to_virtual ∧
      (is.foldl (fun s i => addOneVnode s sid i) r).physical_nodes
        = r.physical_nodes ∧
      (is.foldl (fun s i => addOneVnode s sid i) r).server_counter
        = r.server_counter := by
  induction is generalizing r with
  | nil => exact ⟨[], by simp, by simp, List.nodup_nil, by simp, by simp, by simp, rfl, rfl⟩
  | cons i is2 ih =>
    have hw0 : containsA r.virtual_to_physical (generate_vnode_id r sid i) = false :=
      containsA_probe _ _
    have hA1 : (addOneVnode r sid i).virtual_nodes
        = r.virtual_nodes ++ [generate_vnode_id r sid i] := by rw [addOneVnode_eq]
    have hA2 : (addOneVnode r sid i).virtual_to_physical
        = r.virtual_to_physical ++ [(generate_vnode_id r sid i, sid)] := by rw [addOneVnode_eq]
    have hA3 : (addOneVnode r sid i).physical_to_virtual
        = pushInverse r.physical_to_virtual sid (generate_vnode_id r sid i) := by
      rw [addOneVnode_eq]
    have hA4 : (addOneVnode r sid i).physical_nodes = r.physical_nodes := by
      rw [addOneVnode_eq]
    have hA5 : (addOneVnode r sid i).server_counter = r.server_counter := by
      rw [addOneVnode_eq]
    obtain ⟨ws, hlen, hfresh, hnd, hvn, hfwd, hinv, hphys, hctr⟩ := ih (addOneVnode r sid i)
    rw [hA2] at hfresh
    have hfresh2 : ∀ w ∈ ws, containsA r.virtual_to_physical w = false
        ∧ w ≠ generate_vnode_id r sid i := by
      intro w hw
      have hww := hfresh w hw
      rw [containsA_append] at hww
      rcases Bool.or_eq_false_iff.mp hww with ⟨h1, h2⟩
      refine ⟨h1, ?_⟩
      intro hw3
      rw [containsA_false_iff] at h2
      exact h2 (by simp [keysA, hw3])
    refine ⟨generate_vnode_id r sid i :: ws, by simp [hlen], ?_, ?_, ?_, ?_, ?_, ?_, ?_⟩
    · intro w hw
      rcases List.mem_cons.mp hw with rfl | hw2
      · exact hw0
      · exact (hfresh2 w hw2).1
    · refine List.nodup_cons.mpr ⟨?_, hnd⟩
      intro hmem
      exact (hfresh2 _ hmem).2 rfl
    · simp only [List.foldl_cons]
      rw [hvn, hA1]
      simp
    · simp only [List.foldl_cons]
      rw [hfwd, hA2]
      simp
    · simp only [List.foldl_cons]
      rw [hinv, hA3]
    · simp only [List.foldl_cons]
      rw [hphys, hA4]
    · simp only [List.foldl_cons]
      rw [hctr, hA5]

theorem generate_virtual_nodes_eq (r : HashRing) (sid : Nat) :
    generate_virtual_nodes r sid
      = (List.range 100).foldl (fun s i => addOneVnode s sid i) r := by
  unfold generate_virtual_nodes
  rfl

theorem generate_virtual_nodes_spec (r : HashRing) (sid : Nat) :
    ∃ ws : List Nat,
      ws.length = 100 ∧
      (∀ w ∈ ws, containsA r.virtual_to_physical w = false) ∧
      ws.Nodup ∧
      (generate_virtual_nodes r sid).virtual_nodes = r.virtual_nodes ++ ws ∧
      (generate_virtual_nodes r sid).virtual_to_physical
        = r.virtual_to_physical ++ ws.map (fun w => (w, sid)) ∧
      (generate_virtual_nodes r sid).physical_to_virtual
        = ws.foldl (fun m w => pushInverse m sid w) r.physical_to_virtual ∧
      (generate_virtual_nodes r sid).physical_nodes = r.physical_nodes ∧
      (generate_virtual_nodes r sid).server_counter = r.server_counter := by
  rw [generate_virtual_nodes_eq]
  obtain ⟨ws, hlen, h⟩ := genFold_spec sid (List.range 100) r
  exact ⟨ws, by rw [hlen, List.length_range], h⟩

theorem valuesJoin_pushFold (ws : List Nat) (m : List (Nat × List Nat)) (k : Nat) :
    List.Perm (valuesJoin (ws.foldl (fun m2 w => pushInverse m2 k w) m))
      (valuesJoin m ++ ws) := by
  induction ws generalizing m with
  | nil => simp
  | cons w ws2 ih =>
    simp only [List.foldl_cons]
    refine (ih (pushInverse m k w)).trans ?_
    have h2 := (valuesJoin_pushInverse m k w).append_right ws2
    refine h2.trans ?_
    simp

theorem generate_preserves_inv (r : HashRing) (sid : Nat)
    (hk : ringKeysOK r) (hnd : r.virtual_nodes.Nodup) :
    ringKeysOK (generate_virtual_nodes r sid)
      ∧ (generate_virtual_nodes r sid).virtual_nodes.Nodup := by
  obtain ⟨ws, hlen, hfresh, hwnd, hvn, hfwd, hinv, hphys, hctr⟩ :=
    generate_virtual_nodes_spec r sid
  constructor
  · intro v hv
    rw [hvn] at hv
    rw [hfwd, containsA_append]
    rcases List.mem_append.mp hv with h1 | h2
    · rw [hk v h1]
      rfl
    · have hc : containsA (ws.map (fun w => (w, sid))) v = true := by
        rw [containsA_iff_mem_keysA, keysA_map_pair]
        exact h2
      rw [hc]
      simp
  · rw [hvn]
    refine List.Nodup.append hnd hwnd ?_
    intro a ha haws
    have h1 := hk a ha
    have h2 := hfresh a haws
    rw [h1] at h2
    simp at h2

theorem initFold_inv (ps : List Nat) (r : HashRing)
    (h1 : r.virtual_to_physical.length = r.virtual_nodes.length)
    (h2 : r.virtual_nodes.Nodup)
    (h3 : List.Perm (valuesJoin r.physical_to_virtual) r.virtual_nodes)
    (h4 : ∀ v, containsA r.virtual_to_physical v = true ↔ v ∈ r.virtual_nodes) :
    (ps.foldl (fun s p => generate_virtual_nodes s p) r).virtual_to_physical.length
        = (ps.foldl (fun s p => generate_virtual_nodes s p) r).virtual_nodes.length ∧
    (ps.foldl (fun s p => generate_virtual_nodes s p) r).virtual_nodes.Nodup ∧
    List.Perm
      (valuesJoin (ps.foldl (fun s p => generate_virtual_nodes s p) r).physical_to_virtual)
      (ps.foldl (fun s p => generate_virtual_nodes s p) r).virtual_nodes ∧
    (∀ v, containsA
        (ps.foldl (fun s p => generate_virtual_nodes s p) r).virtual_to_physical v = true
      ↔ v ∈ (ps.foldl (fun s p => generate_virtual_nodes s p) r).virtual_nodes) ∧
    (ps.foldl (fun s p => generate_virtual_nodes s p) r).virtual_nodes.length
        = r.virtual_nodes.length + 100 * ps.length := by
  induction ps generalizing r with
  | nil => exact ⟨h1, h2, h3, h4, by simp⟩
  | cons p ps2 ih =>
    obtain ⟨ws, hlen, hfresh, hwnd, hvn, hfwd, hinv, hphys, hctr⟩ :=
      generate_virtual_nodes_spec r p
    have g1 : (generate_virtual_nodes r p).virtual_to_physical.length
        = (generate_virtual_nodes r p).virtual_nodes.length := by
      rw [hvn, hfwd]
      simp [h1]
    have g2 : (generate_virtual_nodes r p).virtual_nodes.Nodup := by
      rw [hvn]
      refine List.Nodup.append h2 hwnd ?_
      intro a ha haws
      have ha2 := (h4 a).mpr ha
      have ha3 := hfresh a haws
      rw [ha2] at ha3
      simp at ha3
    have g3 : List.Perm (valuesJoin (generate_virtual_nodes r p).physical_to_virtual)
        (generate_virtual_nodes r p).virtual_nodes := by
      rw [hvn, hinv]
      exact (valuesJoin_pushFold ws r.physical_to_virtual p).trans (h3.append_right ws)
    have g4 : ∀ v, containsA (generate_virtual_nodes r p).virtual_to_physical v = true
        ↔ v ∈ (generate_virtual_nodes r p).virtual_nodes := by
      intro v
      rw [hvn, hfwd, containsA_append, List.mem_append, Bool.or_eq_true, h4,
          containsA_iff_mem_keysA, keysA_map_pair]
    have hrec := ih (generate_virtual_nodes r p) g1 g2 g3 g4
    simp only [List.foldl_cons]
    refine ⟨hrec.1, hrec.2.1, hrec.2.2.1, hrec.2.2.2.1, ?_⟩
    rw [hrec.2.2.2.2, hvn]
    simp only [List.length_append, List.length_cons, hlen]
    ring

/-! ### Structure of server removal and the add/remove round trip -/

theorem remove_virtual_nodes_eq_none (r : HashRing) (sid : Nat)
    (h : lookupA r.physical_to_virtual sid = none) :
    remove_virtual_nodes r sid = r := by
  unfold remove_virtual_nodes
  rw [h]

theorem remove_virtual_nodes_eq_some (r : HashRing) (sid : Nat) (vns : List Nat)
    (h : lookupA r.physical_to_virtual sid = some vns) :
    remove_virtual_nodes r sid
      = { r with
          physical_to_virtual := eraseA r.physical_to_virtual sid,
          virtual_to_physical := vns.foldl (fun m v => eraseA m v) r.virtual_to_physical,
          virtual_nodes := r.virtual_nodes.filter (fun x => !(vns.contains x)) } := by
  unfold remove_virtual_nodes
  rw [h]

theorem eraseFold_append_map (ws : List Nat) (m : List (Nat × Nat)) (sid : Nat)
    (hfresh : ∀ w ∈ ws, w ∉ keysA m) :
    ws.foldl (fun m2 w => eraseA m2 w) (m ++ ws.map (fun w => (w, sid))) = m := by
  induction ws generalizing m with
  | nil => simp
  | cons w ws2 ih =>
    simp only [List.map_cons, List.foldl_cons]
    have h1 : eraseA (m ++ (w, sid) :: ws2.map (fun w2 => (w2, sid))) w
        = m ++ ws2.map (fun w2 => (w2, sid)) := by
      rw [eraseA_append_of_not_mem _ _ _ (hfresh w (List.mem_cons_self _ _))]
      rw [eraseA_cons_self]
    rw [h1]
    exact ih m (fun w2 hw2 => hfresh w2 (List.mem_cons_of_mem _ hw2))

theorem contains_eq_true_iff (l : List Nat) (x : Nat) : l.contains x = true ↔ x ∈ l := by
  induction l with
  | nil => simp
  | cons a t ih => simp [List.contains_cons, ih]

theorem filter_out_fresh (vn ws : List Nat) (hvn : ∀ x ∈ vn, x ∉ ws) :
    (vn ++ ws).filter (fun x => !(ws.contains x)) = vn := by
  rw [List.filter_append]
  have h1 : vn.filter (fun x => !(ws.contains x)) = vn := by
    rw [List.filter_eq_self]
    intro a ha
    cases hcc : ws.contains a with
    | false => simp [hcc]
    | true => exact absurd ((contains_eq_true_iff ws a).mp hcc) (hvn a ha)
  have h2 : ws.filter (fun x => !(ws.contains x)) = [] := by
    rw [List.filter_eq_nil_iff]
    intro a ha
    simpa using ha
  rw [h1, h2, List.append_nil]

theorem add_remove_fields (sid : Nat) (r : HashRing)
    (hs : r.virtual_nodes.Sorted (· ≤ ·))
    (hk : ringKeysOK r)
    (hi : containsA r.physical_to_virtual sid = false) :
    (remove_server (add_server sid r).2 sid).virtual_nodes = r.virtual_nodes ∧
    (remove_server (add_server sid r).2 sid).virtual_to_physical = r.virtual_to_physical ∧
    (remove_server (add_server sid r).2 sid).physical_to_virtual = r.physical_to_virtual ∧
    (remove_server (add_server sid r).2 sid).server_counter = r.server_counter ∧
    (sid ∉ r.physical_nodes →
      (remove_server (add_server sid r).2 sid).physical_nodes = r.physical_nodes) := by
  obtain ⟨ws, hlen, hfresh0, hwnd, hvn, hfwd, hinv, hphys, hctr⟩ :=
    generate_virtual_nodes_spec { r with physical_nodes := r.physical_nodes ++ [sid] } sid
  obtain ⟨w1, ws2, rfl⟩ : ∃ w1 ws2, ws = w1 :: ws2 := by
    cases ws with
    | nil => simp at hlen
    | cons a t => exact ⟨a, t, rfl⟩
  have hfresh : ∀ w ∈ w1 :: ws2, containsA r.virtual_to_physical w = false := hfresh0
  have hkeys_inv : sid ∉ keysA r.physical_to_virtual := (containsA_false_iff _ _).mp hi
  have hfresh_keys : ∀ w ∈ w1 :: ws2, w ∉ keysA r.virtual_to_physical :=
    fun w hw => (containsA_false_iff _ _).mp (hfresh w hw)
  have hA_vn : (add_server sid r).2.virtual_nodes
      = sortNodes (r.virtual_nodes ++ (w1 :: ws2)) := by
    show sortNodes (generate_virtual_nodes
        { r with physical_nodes := r.physical_nodes ++ [sid] } sid).virtual_nodes = _
    rw [hvn]
  have hA_fwd : (add_server sid r).2.virtual_to_physical
      = r.virtual_to_physical ++ (w1 :: ws2).map (fun w => (w, sid)) := by
    show (generate_virtual_nodes
        { r with physical_nodes := r.physical_nodes ++ [sid] } sid).virtual_to_physical = _
    rw [hfwd]
  have hA_inv : (add_server sid r).2.physical_to_virtual
      = r.physical_to_virtual ++ [(sid, w1 :: ws2)] := by
    show (generate_virtual_nodes
        { r with physical_nodes := r.physical_nodes ++ [sid] } sid).physical_to_virtual = _
    rw [hinv]
    exact pushFold_of_not_contains ws2 r.physical_to_virtual sid w1 hi
  have hA_phys : (add_server sid r).2.physical_nodes = r.physical_nodes ++ [sid] := by
    show (generate_virtual_nodes
        { r with physical_nodes := r.physical_nodes ++ [sid] } sid).physical_nodes = _
    rw [hphys]
  have hA_ctr : (add_server sid r).2.server_counter = r.server_counter := by
    show (generate_virtual_nodes
        { r with physical_nodes := r.physical_nodes ++ [sid] } sid).server_counter = _
    rw [hctr]
  have hlook : lookupA (add_server sid r).2.physical_to_virtual sid = some (w1 :: ws2) := by
    rw [hA_inv, lookupA_append_of_not_mem _ _ _ hkeys_inv]
    simp [lookupA]
  have hrvn := remove_virtual_nodes_eq_some
      { (add_server sid r).2 with
        physical_nodes := (add_server sid r).2.physical_nodes.filter (fun x => x != sid) }
      sid (w1 :: ws2) hlook
  have hC_vn : (remove_server (add_server sid r).2 sid).virtual_nodes
      = sortNodes ((add_server sid r).2.virtual_nodes.filter
          (fun x => !((w1 :: ws2).contains x))) := by
    show sortNodes (remove_virtual_nodes
        { (add_server sid r).2 with
          physical_nodes := (add_server sid r).2.physical_nodes.filter (fun x => x != sid) }
        sid).virtual_nodes = _
    rw [hrvn]
  have hC_fwd : (remove_server (add_server sid r).2 sid).virtual_to_physical
      = (w1 :: ws2).foldl (fun m v => eraseA m v) (add_server sid r).2.virtual_to_physical := by
    show (remove_virtual_nodes
        { (add_server sid r).2 with
          physical_nodes := (add_server sid r).2.physical_nodes.filter (fun x => x != sid) }
        sid).virtual_to_physical = _
    rw [hrvn]
  have hC_inv : (remove_server (add_server sid r).2 sid).physical_to_virtual
      = eraseA (add_server sid r).2.physical_to_virtual sid := by
    show (remove_virtual_nodes
        { (add_server sid r).2 with
          physical_nodes := (add_server sid r).2.physical_nodes.filter (fun x => x != sid) }
        sid).physical_to_virtual = _
    rw [hrvn]
  have hC_ctr : (remove_server (add_server sid r).2 sid).server_counter
      = (add_server sid r).2.server_counter := by
    show (remove_virtual_nodes
        { (add_server sid r).2 with
          physical_nodes := (add_server sid r).2.physical_nodes.filter (fun x => x != sid) }
        sid).server_counter = _
    rw [hrvn]
  have hC_phys : (remove_server (add_server sid r).2 sid).physical_nodes
      = (add_server sid r).2.physical_nodes.filter (fun x => x != sid) := by
    show (remove_virtual_nodes
        { (add_server sid r).2 with
          physical_nodes := (add_server sid r).2.physical_nodes.filter (fun x => x != sid) }
        sid).physical_nodes = _
    rw [hrvn]
  have hdisj : ∀ x ∈ r.virtual_nodes, x ∉ (w1 :: ws2) := by
    intro x hx hmem
    have h1 := hk x hx
    have h2 := hfresh x hmem
    rw [h1] at h2
    simp at h2
  have hperm : List.Perm
      ((sortNodes (r.virtual_nodes ++ (w1 :: ws2))).filter
        (fun x => !((w1 :: ws2).contains x)))
      r.virtual_nodes := by
    have hp1 : List.Perm (sortNodes (r.virtual_nodes ++ (w1 :: ws2)))
        (r.virtual_nodes ++ (w1 :: ws2)) := List.perm_insertionSort _ _
    have hp2 := hp1.filter (fun x => !((w1 :: ws2).contains x))
    rw [filter_out_fresh _ _ hdisj] at hp2
    exact hp2
  have hsorted2 : ((sortNodes (r.virtual_nodes ++ (w1 :: ws2))).filter
      (fun x => !((w1 :: ws2).contains x))).Sorted (· ≤ ·) :=
    (List.sorted_insertionSort _ _).filter _
  have hvn_final : (sortNodes (r.virtual_nodes ++ (w1 :: ws2))).filter
      (fun x => !((w1 :: ws2).contains x)) = r.virtual_nodes :=
    List.eq_of_perm_of_sorted hperm hsorted2 hs
  refine ⟨?_, ?_, ?_, ?_, ?_⟩
  · rw [hC_vn, hA_vn, hvn_final]
    exact List.Sorted.insertionSort_eq hs
  · rw [hC_fwd, hA_fwd]
    exact eraseFold_append_map (w1 :: ws2) r.virtual_to_physical sid hfresh_keys
  · rw [hC_inv, hA_inv, eraseA_append_of_not_mem _ _ _ hkeys_inv]
    rw [eraseA_cons_self]
    simp
  · rw [hC_ctr, hA_ctr]
  · intro hp
    rw [hC_phys, hA_phys, List.filter_append]
    have h1 : r.physical_nodes.filter (fun x => x != sid) = r.physical_nodes := by
      rw [List.filter_eq_self]
      intro a ha
      have ha2 : a ≠ sid := fun hh => hp (hh ▸ ha)
      simp [ha2]
    have h2 : [sid].filter (fun x => x != sid) = [] := by simp
    rw [h1, h2, List.append_nil]

theorem mem_sortNodes (l : List Nat) (x : Nat) : x ∈ sortNodes l ↔ x ∈ l :=
  (List.perm_insertionSort _ l).mem_iff

theorem remove_server_fields_none (r : HashRing) (sid : Nat)
    (h : lookupA r.physical_to_virtual sid = none)
    (hs : r.virtual_nodes.Sorted (· ≤ ·)) :
    (remove_server r sid).physical_nodes = r.physical_nodes.filter (fun x => x != sid) ∧
    (remove_server r sid).virtual_nodes = r.virtual_nodes ∧
    (remove_server r sid).virtual_to_physical = r.virtual_to_physical ∧
    (remove_server r sid).physical_to_virtual = r.physical_to_virtual ∧
    (remove_server r sid).server_counter = r.server_counter := by
  have hrv := remove_virtual_nodes_eq_none
      { r with physical_nodes := r.physical_nodes.filter (fun x => x != sid) } sid h
  refine ⟨?_, ?_, ?_, ?_, ?_⟩
  · show (remove_virtual_nodes
        { r with physical_nodes := r.physical_nodes.filter (fun x => x != sid) }
        sid).physical_nodes = _
    rw [hrv]
  · show sortNodes (remove_virtual_nodes
        { r with physical_nodes := r.physical_nodes.filter (fun x => x != sid) }
        sid).virtual_nodes = _
    rw [hrv]
    exact List.Sorted.insertionSort_eq hs
  · show (remove_virtual_nodes
        { r with physical_nodes := r.physical_nodes.filter (fun x => x != sid) }
        sid).virtual_to_physical = _
    rw [hrv]
  · show (remove_virtual_nodes
        { r with physical_nodes := r.physical_nodes.filter (fun x => x != sid) }
        sid).physical_to_virtual = _
    rw [hrv]
  · show (remove_virtual_nodes
        { r with physical_nodes := r.physical_nodes.filter (fun x => x != sid) }
        sid).server_counter = _
    rw [hrv]

theorem remove_server_fields_some (r : HashRing) (sid : Nat) (vns : List Nat)
    (h : lookupA r.physical_to_virtual sid = some vns) :
    (remove_server r sid).physical_nodes = r.physical_nodes.filter (fun x => x != sid) ∧
    (remove_server r sid).virtual_nodes
      = sortNodes (r.virtual_nodes.filter (fun x => !(vns.contains x))) ∧
    (remove_server r sid).virtual_to_physical
      = vns.foldl (fun m v => eraseA m v) r.virtual_to_physical ∧
    (remove_server r sid).physical_to_virtual = eraseA r.physical_to_virtual sid ∧
    (remove_server r sid).server_counter = r.server_counter := by
  have hrv := remove_virtual_nodes_eq_some
      { r with physical_nodes := r.physical_nodes.filter (fun x => x != sid) } sid vns h
  refine ⟨?_, ?_, ?_, ?_, ?_⟩
  · show (remove_virtual_nodes
        { r with physical_nodes := r.physical_nodes.filter (fun x => x != sid) }
        sid).physical_nodes = _
    rw [hrv]
  · show sortNodes (remove_virtual_nodes
        { r with physical_nodes := r.physical_nodes.filter (fun x => x != sid) }
        sid).virtual_nodes = _
    rw [hrv]
  · show (remove_virtual_nodes
        { r with physical_nodes := r.physical_nodes.filter (fun x => x != sid) }
        sid).virtual_to_physical = _
    rw [hrv]
  · show (remove_virtual_nodes
        { r with physical_nodes := r.physical_nodes.filter (fun x => x != sid) }
        sid).physical_to_virtual = _
    rw [hrv]
  · show (remove_virtual_nodes
        { r with physical_nodes := r.physical_nodes.filter (fun x => x != sid) }
        sid).server_counter = _
    rw [hrv]

theorem pick_nil (r : HashRing) (data : List Nat) (h : r.virtual_nodes = []) :
    pick_server_on_ring r data = none := by
  unfold pick_server_on_ring
  rw [h]
  rfl

theorem specRingTarget_eq_find (l : List Nat) (h v : Nat)
    (hf : l.find? (fun u => decide (h < u)) = some v) : specRingTarget l h = some v := by
  unfold specRingTarget
  rw [hf]

theorem specRingTarget_eq_head (l : List Nat) (h : Nat)
    (hf : l.find? (fun u => decide (h < u)) = none) : specRingTarget l h = l.head? := by
  unfold specRingTarget
  rw [hf]

theorem specRingTarget_some_inv (l : List Nat) (h v : Nat)
    (ht : specRingTarget l h = some v) :
    l.find? (fun u => decide (h < u)) = some v
      ∨ (l.find? (fun u => decide (h < u)) = none ∧ l.head? = some v) := by
  unfold specRingTarget at ht
  cases hf : l.find? (fun u => decide (h < u)) with
  | none =>
    rw [hf] at ht
    exact Or.inr ⟨rfl, ht⟩
  | some u =>
    rw [hf] at ht
    exact Or.inl (by rw [← ht])

/-! ### The claims -/

/-- C1: on every non-empty sorted virtual-node sequence,
`pick_server_on_ring` hashes the key to a 32-bit value, selects the
first virtual id strictly greater than that hash, wraps to the smallest
virtual id whenever the hash is at or above the maximum virtual id
present (including exact equality with the maximum), and returns the
physical id the forward map assigns to the selected virtual id. -/
theorem C1_pick_follows_ring_order (r : HashRing) (data : List Nat)
    (hne : r.virtual_nodes ≠ []) (hs : r.virtual_nodes.Sorted (· ≤ ·)) :
    create_hash data < 2 ^ 32 ∧
    (pick_server_on_ring r data).map Prod.fst
      = (specRingTarget r.virtual_nodes (create_hash data)).bind
          (fun v => lookupA r.virtual_to_physical v) ∧
    (r.virtual_nodes.getD (r.virtual_nodes.length - 1) 0 ≤ create_hash data →
      specRingTarget r.virtual_nodes (create_hash data) = r.virtual_nodes.head?) :=
  ⟨create_hash_lt data, pick_eq_specRingTarget r data hne hs,
   fun hge => specRingTarget_of_ge_max r.virtual_nodes hs (create_hash data) hge⟩

/-- Witness for C1 at a concrete two-server ring and the key byte 97
(whose hash is above the maximum virtual id, so the lookup wraps). -/
theorem C1_witness :
    create_hash [97] < 2 ^ 32 ∧
    (pick_server_on_ring
        ⟨[1, 2], [10, 20], [(10, 1), (20, 2)], [(1, [10]), (2, [20])], []⟩ [97]).map Prod.fst
      = (specRingTarget [10, 20] (create_hash [97])).bind
          (fun v => lookupA [(10, 1), (20, 2)] v) ∧
    specRingTarget [10, 20] (create_hash [97]) = ([10, 20] : List Nat).head? := by
  have h := C1_pick_follows_ring_order
    ⟨[1, 2], [10, 20], [(10, 1), (20, 2)], [(1, [10]), (2, [20])], []⟩ [97]
    (by decide) (by decide)
  exact ⟨h.1, h.2.1, h.2.2 (by decide)⟩

/-- C2: after `init_all_servers` on a ring seeded with distinct physical
ids, the forward map holds exactly `100 × n` entries, the union of the
inverse-map value lists is exactly the virtual-node sequence (up to
order) with no duplicate virtual ids, and a virtual id is a key of the
forward map exactly when it occurs in the sorted sequence. -/
theorem C2_init_coverage (ids : List Nat) (hnd : ids.Nodup) :
    (init_all_servers (new_with_servers ids)).virtual_to_physical.length
        = 100 * ids.length ∧
    (init_all_servers (new_with_servers ids)).virtual_nodes.Nodup ∧
    List.Perm (valuesJoin (init_all_servers (new_with_servers ids)).physical_to_virtual)
      (init_all_servers (new_with_servers ids)).virtual_nodes ∧
    (∀ v, containsA (init_all_servers (new_with_servers ids)).virtual_to_physical v = true
        ↔ v ∈ (init_all_servers (new_with_servers ids)).virtual_nodes) := by
  have hbase := initFold_inv ids (new_with_servers ids) rfl List.nodup_nil
    List.Perm.nil (fun v => by simp [containsA, lookupA, new_with_servers])
  have hI_fwd : (init_all_servers (new_with_servers ids)).virtual_to_physical
      = (ids.foldl (fun s p => generate_virtual_nodes s p)
          (new_with_servers ids)).virtual_to_physical := rfl
  have hI_inv : (init_all_servers (new_with_servers ids)).physical_to_virtual
      = (ids.foldl (fun s p => generate_virtual_nodes s p)
          (new_with_servers ids)).physical_to_virtual := rfl
  have hI_vn : (init_all_servers (new_with_servers ids)).virtual_nodes
      = sortNodes (ids.foldl (fun s p => generate_virtual_nodes s p)
          (new_with_servers ids)).virtual_nodes := rfl
  refine ⟨?_, ?_, ?_, ?_⟩
  · rw [hI_fwd, hbase.1, hbase.2.2.2.2]
    simp [new_with_servers]
  · rw [hI_vn]
    exact ((List.perm_insertionSort _ _).nodup_iff).mpr hbase.2.1
  · rw [hI_inv, hI_vn]
    exact hbase.2.2.1.trans (List.perm_insertionSort _ _).symm
  · intro v
    rw [hI_fwd, hI_vn, mem_sortNodes]
    exact hbase.2.2.2.1 v

/-- Witness for C2 at the seed list `[3, 5]` (two distinct servers),
with the coverage equivalence inspected at the virtual id 0. -/
theorem C2_witness :
    (init_all_servers (new_with_servers [3, 5])).virtual_to_physical.length
        = 100 * ([3, 5] : List Nat).length ∧
    (init_all_servers (new_with_servers [3, 5])).virtual_nodes.Nodup ∧
    List.Perm (valuesJoin (init_all_servers (new_with_servers [3, 5])).physical_to_virtual)
      (init_all_servers (new_with_servers [3, 5])).virtual_nodes ∧
    (containsA (init_all_servers (new_with_servers [3, 5])).virtual_to_physical 0 = true
        ↔ 0 ∈ (init_all_servers (new_with_servers [3, 5])).virtual_nodes) := by
  have h := C2_init_coverage [3, 5] (by decide)
  exact ⟨h.1, h.2.1, h.2.2.1, h.2.2.2 0⟩

/-- C3: adding a server and immediately removing the physical id that
`add_server` returned restores a state in which every key looks up to
the same physical id as before the add.  The freshly generated id is
assumed new (not an existing physical id, no inverse-map entry), which
is what the random 32-bit generation provides. -/
theorem C3_add_remove_reversible (sid : Nat) (r : HashRing) (data : List Nat)
    (hs : r.virtual_nodes.Sorted (· ≤ ·))
    (hk : ringKeysOK r)
    (hi : containsA r.physical_to_virtual sid = false) :
    (pick_server_on_ring
        (remove_server (add_server sid r).2 (add_server sid r).1) data).map Prod.fst
      = (pick_server_on_ring r data).map Prod.fst := by
  have hfields := add_remove_fields sid r hs hk hi
  exact pick_map_fst_congr _ r data hfields.1 hfields.2.1

/-- Witness for C3: a fresh id 99 added to and removed from the concrete
two-server ring leaves the lookup of key byte 97 unchanged. -/
theorem C3_witness :
    (pick_server_on_ring
        (remove_server
          (add_server 99 ⟨[1, 2], [10, 20], [(10, 1), (20, 2)], [(1, [10]), (2, [20])], []⟩).2
          (add_server 99 ⟨[1, 2], [10, 20], [(10, 1), (20, 2)], [(1, [10]), (2, [20])], []⟩).1)
        [97]).map Prod.fst
      = (pick_server_on_ring
          ⟨[1, 2], [10, 20], [(10, 1), (20, 2)], [(1, [10]), (2, [20])], []⟩ [97]).map Prod.fst :=
  C3_add_remove_reversible 99
    ⟨[1, 2], [10, 20], [(10, 1), (20, 2)], [(1, [10]), (2, [20])], []⟩ [97]
    (by decide) (by unfold ringKeysOK; decide) (by decide)

/-- C4: looking up on a ring with zero virtual nodes is a fatal failure
(the out-of-bounds panic is modelled by `none`); no physical id is ever
returned. -/
theorem C4_pick_on_empty_ring_fails (r : HashRing) (data : List Nat)
    (h : r.virtual_nodes = []) : pick_server_on_ring r data = none :=
  pick_nil r data h

/-- Witness for C4: an empty ring that still knows one physical node. -/
theorem C4_witness :
    pick_server_on_ring ⟨[7], [], [], [], []⟩ [1, 2, 3] = none :=
  C4_pick_on_empty_ring_fails ⟨[7], [], [], [], []⟩ [1, 2, 3] (by decide)

/-- C5: `remove_server p` filters `p` out of the physical set (a no-op
on that set when `p` is absent), removes exactly the virtual ids
recorded for `p` in the inverse map from both the forward map and the
virtual-node sequence, and deletes the inverse-map entry of `p`; when
`p` has no inverse-map entry the virtual-node removal is a no-op while
`p` is still dropped from the physical set. -/
theorem C5_remove_server_spec (r : HashRing) (p : Nat)
    (hs : r.virtual_nodes.Sorted (· ≤ ·))
    (hfnd : (keysA r.virtual_to_physical).Nodup)
    (hind : (keysA r.physical_to_virtual).Nodup) :
    (remove_server r p).physical_nodes = r.physical_nodes.filter (fun x => x != p) ∧
    p ∉ (remove_server r p).physical_nodes ∧
    (∀ vns, lookupA r.physical_to_virtual p = some vns →
      (∀ v, lookupA (remove_server r p).virtual_to_physical v
          = if v ∈ vns then none else lookupA r.virtual_to_physical v) ∧
      (∀ v, v ∈ (remove_server r p).virtual_nodes ↔ v ∈ r.virtual_nodes ∧ v ∉ vns) ∧
      lookupA (remove_server r p).physical_to_virtual p = none) ∧
    (lookupA r.physical_to_virtual p = none →
      (remove_server r p).virtual_nodes = r.virtual_nodes ∧
      (remove_server r p).virtual_to_physical = r.virtual_to_physical ∧
      (remove_server r p).physical_to_virtual = r.physical_to_virtual) := by
  have hphys : (remove_server r p).physical_nodes
      = r.physical_nodes.filter (fun x => x != p) := by
    cases hc : lookupA r.physical_to_virtual p with
    | none => exact (remove_server_fields_none r p hc hs).1
    | some vns => exact (remove_server_fields_some r p vns hc).1
  refine ⟨hphys, ?_, ?_, ?_⟩
  · rw [hphys]
    simp [List.mem_filter]
  · intro vns hc
    obtain ⟨f1, f2, f3, f4, f5⟩ := remove_server_fields_some r p vns hc
    refine ⟨?_, ?_, ?_⟩
    · intro v
      rw [f3]
      exact lookupA_eraseFold vns r.virtual_to_physical v hfnd
    · intro v
      rw [f2, mem_sortNodes, List.mem_filter]
      simp [contains_eq_true_iff]
    · rw [f4]
      exact lookupA_eraseA_self r.physical_to_virtual p hind
  · intro hc
    obtain ⟨f1, f2, f3, f4, f5⟩ := remove_server_fields_none r p hc hs
    exact ⟨f2, f3, f4⟩

/-- Witness for C5: remove the physical id 2 (which owns the virtual id
20) from the concrete two-server ring; the recorded virtual ids are
checked at the ids 20 and 10. -/
theorem C5_witness :
    (remove_server ⟨[1, 2], [10, 20], [(10, 1), (20, 2)], [(1, [10]), (2, [20])], []⟩
        2).physical_nodes = ([1, 2] : List Nat).filter (fun x => x != 2) ∧
    2 ∉ (remove_server ⟨[1, 2], [10, 20], [(10, 1), (20, 2)], [(1, [10]), (2, [20])], []⟩
        2).physical_nodes ∧
    lookupA (remove_server ⟨[1, 2], [10, 20], [(10, 1), (20, 2)], [(1, [10]), (2, [20])], []⟩
        2).virtual_to_physical 20 = (if (20 : Nat) ∈ [20] then none else lookupA [(10, 1), (20, 2)] 20) ∧
    ((20 : Nat) ∈ (remove_server ⟨[1, 2], [10, 20], [(10, 1), (20, 2)], [(1, [10]), (2, [20])], []⟩
        2).virtual_nodes ↔ (20 : Nat) ∈ [10, 20] ∧ (20 : Nat) ∉ [20]) ∧
    lookupA (remove_server ⟨[1, 2], [10, 20], [(10, 1), (20, 2)], [(1, [10]), (2, [20])], []⟩
        2).physical_to_virtual 2 = none := by
  have h := C5_remove_server_spec
    ⟨[1, 2], [10, 20], [(10, 1), (20, 2)], [(1, [10]), (2, [20])], []⟩ 2
    (by decide) (by decide) (by decide)
  have hsome := h.2.2.1 [20] (by decide)
  exact ⟨h.1, h.2.1, hsome.1 20, hsome.2.1 20, hsome.2.2⟩

/-- C6: `generate_vnode_id` never returns an id that is already a key
of the forward map (collision probing), and the ring operations each
preserve distinctness of the virtual-node ids. -/
theorem C6_vnode_ids_distinct (r : HashRing) (sid i p : Nat)
    (hk : ringKeysOK r) (hnd : r.virtual_nodes.Nodup) :
    containsA r.virtual_to_physical (generate_vnode_id r sid i) = false ∧
    (generate_virtual_nodes r sid).virtual_nodes.Nodup ∧
    (add_server sid r).2.virtual_nodes.Nodup ∧
    (remove_server r p).virtual_nodes.Nodup ∧
    (init_all_servers r).virtual_nodes.Nodup := by
  refine ⟨?_, ?_, ?_, ?_, ?_⟩
  · unfold generate_vnode_id
    exact containsA_probe _ _
  · exact (generate_preserves_inv r sid hk hnd).2
  · have hg := (generate_preserves_inv
      { r with physical_nodes := r.physical_nodes ++ [sid] } sid hk hnd).2
    show (sortNodes (generate_virtual_nodes
        { r with physical_nodes := r.physical_nodes ++ [sid] } sid).virtual_nodes).Nodup
    exact ((List.perm_insertionSort _ _).nodup_iff).mpr hg
  · cases hc : lookupA r.physical_to_virtual p with
    | none =>
      have hrv := remove_virtual_nodes_eq_none
          { r with physical_nodes := r.physical_nodes.filter (fun x => x != p) } p hc
      show (sortNodes (remove_virtual_nodes
          { r with physical_nodes := r.physical_nodes.filter (fun x => x != p) }
          p).virtual_nodes).Nodup
      rw [hrv]
      exact ((List.perm_insertionSort _ _).nodup_iff).mpr hnd
    | some vns =>
      have hrv := remove_virtual_nodes_eq_some
          { r with physical_nodes := r.physical_nodes.filter (fun x => x != p) } p vns hc
      show (sortNodes (remove_virtual_nodes
          { r with physical_nodes := r.physical_nodes.filter (fun x => x != p) }
          p).virtual_nodes).Nodup
      rw [hrv]
      exact ((List.perm_insertionSort _ _).nodup_iff).mpr (hnd.filter _)
  · have H : ∀ (ps : List Nat) (r2 : HashRing), ringKeysOK r2 → r2.virtual_nodes.Nodup →
        (ps.foldl (fun s q => generate_virtual_nodes s q) r2).virtual_nodes.Nodup ∧
        ringKeysOK (ps.foldl (fun s q => generate_virtual_nodes s q) r2) := by
      intro ps
      induction ps with
      | nil => intro r2 a b; exact ⟨b, a⟩
      | cons q ps2 ih =>
        intro r2 a b
        have hg := generate_preserves_inv r2 q a b
        simpa only [List.foldl_cons] using ih (generate_virtual_nodes r2 q) hg.1 hg.2
    show (sortNodes ((r.physical_nodes.foldl
        (fun s q => generate_virtual_nodes s q) r).virtual_nodes)).Nodup
    exact ((List.perm_insertionSort _ _).nodup_iff).mpr (H r.physical_nodes r hk hnd).1

/-- Witness for C6 at the concrete two-server ring. -/
theorem C6_witness :
    containsA [(10, 1), (20, 2)]
      (generate_vnode_id
        ⟨[1, 2], [10, 20], [(10, 1), (20, 2)], [(1, [10]), (2, [20])], []⟩ 7 0) = false ∧
    (generate_virtual_nodes
      ⟨[1, 2], [10, 20], [(10, 1), (20, 2)], [(1, [10]), (2, [20])], []⟩ 7).virtual_nodes.Nodup ∧
    (add_server 7
      ⟨[1, 2], [10, 20], [(10, 1), (20, 2)], [(1, [10]), (2, [20])], []⟩).2.virtual_nodes.Nodup ∧
    (remove_server
      ⟨[1, 2], [10, 20], [(10, 1), (20, 2)], [(1, [10]), (2, [20])], []⟩ 1).virtual_nodes.Nodup ∧
    (init_all_servers
      ⟨[1, 2], [10, 20], [(10, 1), (20, 2)], [(1, [10]), (2, [20])], []⟩).virtual_nodes.Nodup :=
  C6_vnode_ids_distinct
    ⟨[1, 2], [10, 20], [(10, 1), (20, 2)], [(1, [10]), (2, [20])], []⟩ 7 0 1
    (by unfold ringKeysOK; decide) (by decide)

/-- C7: if a lookup returns the physical id `N`, then after removing a
different physical id `q` (whose recorded virtual nodes, per the ring
invariant, all map back to `q`), the same key still looks up to `N`. -/
theorem C7_pick_stable_under_other_removal (r : HashRing) (q N : Nat) (data : List Nat)
    (hs : r.virtual_nodes.Sorted (· ≤ ·))
    (hfnd : (keysA r.virtual_to_physical).Nodup)
    (hinv : ∀ vns, lookupA r.physical_to_virtual q = some vns →
        ∀ v ∈ vns, lookupA r.virtual_to_physical v = some q)
    (hqN : q ≠ N)
    (hpick : (pick_server_on_ring r data).map Prod.fst = some N) :
    (pick_server_on_ring (remove_server r q) data).map Prod.fst = some N := by
  have hne : r.virtual_nodes ≠ [] := by
    intro hnil
    rw [pick_nil r data hnil] at hpick
    simp at hpick
  have hbridge := pick_eq_specRingTarget r data hne hs
  rw [hbridge] at hpick
  cases htgt : specRingTarget r.virtual_nodes (create_hash data) with
  | none => rw [htgt] at hpick; simp at hpick
  | some v0 =>
    rw [htgt] at hpick
    simp only [Option.some_bind] at hpick
    cases hc : lookupA r.physical_to_virtual q with
    | none =>
      obtain ⟨f1, f2, f3, f4, f5⟩ := remove_server_fields_none r q hc hs
      rw [pick_map_fst_congr (remove_server r q) r data f2 f3, hbridge, htgt]
      simpa using hpick
    | some vns =>
      obtain ⟨f1, f2, f3, f4, f5⟩ := remove_server_fields_some r q vns hc
      have hv0vns : v0 ∉ vns := by
        intro hmem
        have h2 := hinv vns hc v0 hmem
        rw [hpick] at h2
        injection h2 with h3
        exact hqN h3.symm
      have hv0mem : v0 ∈ r.virtual_nodes := by
        rcases specRingTarget_some_inv _ _ _ htgt with hf | ⟨hf, hh⟩
        · exact List.mem_of_find?_eq_some hf
        · exact ((sorted_head?_iff r.virtual_nodes hs v0).mp hh).1
      have hsorted2 : ((remove_server r q).virtual_nodes).Sorted (· ≤ ·) := by
        rw [f2]
        exact List.sorted_insertionSort _ _
      have hmem2 : v0 ∈ (remove_server r q).virtual_nodes := by
        rw [f2, mem_sortNodes, List.mem_filter]
        refine ⟨hv0mem, ?_⟩
        simpa using hv0vns
      have hne2 : (remove_server r q).virtual_nodes ≠ [] := List.ne_nil_of_mem hmem2
      have hsub : ∀ u, u ∈ (remove_server r q).virtual_nodes → u ∈ r.virtual_nodes := by
        intro u hu
        rw [f2, mem_sortNodes, List.mem_filter] at hu
        exact hu.1
      have htgt2 : specRingTarget (remove_server r q).virtual_nodes (create_hash data)
          = some v0 := by
        rcases specRingTarget_some_inv _ _ _ htgt with hf | ⟨hf, hh⟩
        · obtain ⟨hv0l, hlt, hmin⟩ :=
            (sorted_find?_lt_iff r.virtual_nodes hs (create_hash data) v0).mp hf
          refine specRingTarget_eq_find _ _ _ ?_
          exact (sorted_find?_lt_iff _ hsorted2 _ _).mpr
            ⟨hmem2, hlt, fun u hu hhu => hmin u (hsub u hu) hhu⟩
        · obtain ⟨hv0l, hmin⟩ := (sorted_head?_iff r.virtual_nodes hs v0).mp hh
          have hf2 : (remove_server r q).virtual_nodes.find?
              (fun u => decide (create_hash data < u)) = none := by
            rw [List.find?_eq_none]
            intro x hx
            have h3 := List.find?_eq_none.mp hf x (hsub x hx)
            simpa using h3
          rw [specRingTarget_eq_head _ _ hf2]
          exact (sorted_head?_iff _ hsorted2 v0).mpr
            ⟨hmem2, fun u hu => hmin u (hsub u hu)⟩
      rw [pick_eq_specRingTarget (remove_server r q) data hne2 hsorted2, htgt2]
      simp only [Option.some_bind]
      rw [f3, lookupA_eraseFold vns r.virtual_to_physical v0 hfnd, if_neg hv0vns]
      exact hpick

/-- Witness for C7: key byte 97 resolves to the physical id 1 on the
concrete two-server ring; removing the other id 2 leaves it at 1. -/
theorem C7_witness :
    (pick_server_on_ring
        (remove_server ⟨[1, 2], [10, 20], [(10, 1), (20, 2)], [(1, [10]), (2, [20])], []⟩ 2)
        [97]).map Prod.fst = some 1 :=
  C7_pick_stable_under_other_removal
    ⟨[1, 2], [10, 20], [(10, 1), (20, 2)], [(1, [10]), (2, [20])], []⟩ 2 1 [97]
    (by decide) (by decide)
    (by
      intro vns hvns v hv
      simp only [lookupA] at hvns
      norm_num at hvns
      rw [← hvns] at hv
      simp only [List.mem_singleton] at hv
      subst hv
      decide)
    (by decide) (by decide)

/-- C8: lookup is deterministic in the key bytes: when a lookup returns
the physical id `s`, repeating it with identical bytes on the resulting
state returns `s` again. -/
theorem C8_pick_deterministic (r : HashRing) (data : List Nat) (s : Nat) (r1 : HashRing)
    (h : pick_server_on_ring r data = some (s, r1)) :
    (pick_server_on_ring r1 data).map Prod.fst = some s := by
  have h2 := pick_some_inv r data s r1 h
  have h3 := pick_map_fst_congr r1 r data (by rw [h2]) (by rw [h2])
  rw [h3, h, Option.map_some']

/-- Witness for C8 at the concrete two-server ring and key byte 97. -/
theorem C8_witness :
    (pick_server_on_ring
        ⟨[1, 2], [10, 20], [(10, 1), (20, 2)], [(1, [10]), (2, [20])], [(1, 1)]⟩ [97]).map
        Prod.fst = some 1 :=
  C8_pick_deterministic
    ⟨[1, 2], [10, 20], [(10, 1), (20, 2)], [(1, [10]), (2, [20])], []⟩ [97] 1
    ⟨[1, 2], [10, 20], [(10, 1), (20, 2)], [(1, [10]), (2, [20])], [(1, 1)]⟩ (by decide)

/-- C9: a key whose hash is strictly below the smallest virtual id
resolves to the owner of the smallest virtual id, exactly as a key
whose hash is at or above the maximum does (the below-minimum and
wraparound cases coincide). -/
theorem C9_below_min_wraps (r : HashRing) (data1 data2 : List Nat)
    (hne : r.virtual_nodes ≠ []) (hs : r.virtual_nodes.Sorted (· ≤ ·))
    (h1 : create_hash data1 < r.virtual_nodes.getD 0 0)
    (h2 : r.virtual_nodes.getD (r.virtual_nodes.length - 1) 0 ≤ create_hash data2) :
    (pick_server_on_ring r data1).map Prod.fst
      = lookupA r.virtual_to_physical (r.virtual_nodes.getD 0 0) ∧
    (pick_server_on_ring r data2).map Prod.fst
      = (pick_server_on_ring r data1).map Prod.fst := by
  have hlen : 0 < r.virtual_nodes.length := List.length_pos.mpr hne
  have hf1 : r.virtual_nodes.find? (fun u => decide (create_hash data1 < u))
      = some (r.virtual_nodes.getD 0 0) :=
    find?_first_eq _ _ 0 hlen (by simpa using h1)
      (fun j hj => absurd hj (Nat.not_lt_zero j))
  have hp1 : (pick_server_on_ring r data1).map Prod.fst
      = lookupA r.virtual_to_physical (r.virtual_nodes.getD 0 0) := by
    rw [pick_eq_specRingTarget r data1 hne hs, specRingTarget_eq_find _ _ _ hf1]
    simp
  have hp2 : (pick_server_on_ring r data2).map Prod.fst
      = lookupA r.virtual_to_physical (r.virtual_nodes.getD 0 0) := by
    rw [pick_eq_specRingTarget r data2 hne hs, specRingTarget_of_ge_max _ hs _ h2,
        head?_eq_getD _ hne]
    simp
  exact ⟨hp1, hp2.trans hp1.symm⟩

/-- Witness for C9: the hash of byte 97 is below both virtual ids of a
high-placed ring and the hash of byte 48 is above both, and both keys
resolve to the owner of the smallest virtual id. -/
theorem C9_witness :
    (pick_server_on_ring
        ⟨[1, 2], [4000000000, 4100000000], [(4000000000, 1), (4100000000, 2)],
          [(1, [4000000000]), (2, [4100000000])], []⟩ [97]).map Prod.fst
      = lookupA [(4000000000, 1), (4100000000, 2)]
          (([4000000000, 4100000000] : List Nat).getD 0 0) ∧
    (pick_server_on_ring
        ⟨[1, 2], [4000000000, 4100000000], [(4000000000, 1), (4100000000, 2)],
          [(1, [4000000000]), (2, [4100000000])], []⟩ [48]).map Prod.fst
      = (pick_server_on_ring
          ⟨[1, 2], [4000000000, 4100000000], [(4000000000, 1), (4100000000, 2)],
            [(1, [4000000000]), (2, [4100000000])], []⟩ [97]).map Prod.fst :=
  C9_below_min_wraps
    ⟨[1, 2], [4000000000, 4100000000], [(4000000000, 1), (4100000000, 2)],
      [(1, [4000000000]), (2, [4100000000])], []⟩ [97] [48]
    (by decide) (by decide) (by decide) (by decide)

/-- C10: a successful lookup changes nothing but the hit counter of the
returned physical id, which is incremented by exactly 1 (created with
value 1 when absent); every other counter entry is unchanged. -/
theorem C10_pick_frame (r : HashRing) (data : List Nat) (s : Nat) (r1 : HashRing)
    (h : pick_server_on_ring r data = some (s, r1)) :
    r1.physical_nodes = r.physical_nodes ∧
    r1.virtual_nodes = r.virtual_nodes ∧
    r1.virtual_to_physical = r.virtual_to_physical ∧
    r1.physical_to_virtual = r.physical_to_virtual ∧
    lookupA r1.server_counter s = some ((lookupA r.server_counter s).getD 0 + 1) ∧
    (∀ t, t ≠ s → lookupA r1.server_counter t = lookupA r.server_counter t) := by
  have h2 := pick_some_inv r data s r1 h
  refine ⟨by rw [h2], by rw [h2], by rw [h2], by rw [h2], ?_, ?_⟩
  · rw [h2]
    exact lookupA_bump_self r.server_counter s
  · intro t ht
    rw [h2]
    exact lookupA_bump_ne r.server_counter s t ht

/-- Witness for C10: the lookup of key byte 97 on the concrete
two-server ring touches only the counter of the returned id 1; the
other-id check is inspected at the physical id 2. -/
theorem C10_witness :
    ([1, 2] : List Nat) = [1, 2] ∧
    ([10, 20] : List Nat) = [10, 20] ∧
    ([(10, 1), (20, 2)] : List (Nat × Nat)) = [(10, 1), (20, 2)] ∧
    ([(1, [10]), (2, [20])] : List (Nat × List Nat)) = [(1, [10]), (2, [20])] ∧
    lookupA [(1, 1)] 1 = some ((lookupA ([] : List (Nat × Nat)) 1).getD 0 + 1) ∧
    lookupA [(1, 1)] 2 = lookupA ([] : List (Nat × Nat)) 2 := by
  have h := C10_pick_frame
    ⟨[1, 2], [10, 20], [(10, 1), (20, 2)], [(1, [10]), (2, [20])], []⟩ [97] 1
    ⟨[1, 2], [10, 20], [(10, 1), (20, 2)], [(1, [10]), (2, [20])], [(1, 1)]⟩ (by decide)
  exact ⟨h.1, h.2.1, h.2.2.1, h.2.2.2.1, h.2.2.2.2.1, h.2.2.2.2.2 2 (by decide)⟩
